import Mathlib

/-!
Verification of the deferred-value settlement and composition engine described
by the repository's specification.  The repository's source files exercise the
engine (Promises, async functions, generators, iterators) through assertions;
the engine itself is the hosting platform, so the definitions below are
modelled from the specification and from the behaviour the source files pin
down with their assertions.
-/

namespace Settlement

/-- Modelled from the spec: the eventual outcome of a settled cell — either
fulfilled with a value or rejected with an error (§3 "Settlement Cell",
non-pending states). -/
inductive Outcome (V E : Type) where
  | fulfilled : V → Outcome V E
  | rejected : E → Outcome V E
deriving DecidableEq, Repr

/-- Modelled from the spec: the three states of a Settlement Cell, with the
settled payload retained in the state (§3 "Settlement Cell"; source
`part_000` lines 44-53, "States of Promises"). -/
inductive CellState (V E : Type) where
  | pending : CellState V E
  | fulfilled : V → CellState V E
  | rejected : E → CellState V E
deriving DecidableEq, Repr

/-- Modelled from the spec: a settle operation — `settle_fulfilled(value)` or
`settle_reject(error)` (§4.1). -/
inductive SettleOp (V E : Type) where
  | fulfill : V → SettleOp V E
  | reject : E → SettleOp V E
deriving DecidableEq, Repr

/-- Modelled from the spec: applying a settle operation to a cell state.
Only the first call has effect; on a non-pending cell the operation is
silently ignored and the state (and hence the payload) is returned unchanged
(§4.1 "settle_* is idempotent-safe").  The function is total: no input
raises. -/
def applySettle (op : SettleOp V E) (s : CellState V E) : CellState V E :=
  match s with
  | .pending =>
    match op with
    | .fulfill v => .fulfilled v
    | .reject e => .rejected e
  | _ => s

/-- A cell state is settled when it is no longer pending. -/
def CellState.settled : CellState V E → Bool
  | .pending => false
  | _ => true

/-- Settling a pending cell always yields a settled state. -/
theorem applySettle_settled (op : SettleOp V E) :
    (applySettle op (CellState.pending : CellState V E)).settled = true := by
  cases op <;> rfl

/-- Claim C1: the first settle operation on a cell fixes its state and payload
permanently — a second settle operation of either kind, with any argument,
leaves the state and payload exactly as the first call set them (and, the
operations being total functions on states, never raises). -/
theorem settle_first_call_permanent (V E : Type) :
    (∀ (s : CellState V E) (op : SettleOp V E), s ≠ .pending → applySettle op s = s)
    ∧ (∀ (op1 op2 : SettleOp V E),
        applySettle op2 (applySettle op1 (.pending : CellState V E))
          = applySettle op1 (.pending : CellState V E)) := by
  constructor
  · intro s op hs
    cases s with
    | pending => exact absurd rfl hs
    | fulfilled v => rfl
    | rejected e => rfl
  · intro op1 op2
    cases op1 <;> cases op2 <;> rfl

/-- Witness for C1 at concrete inputs: a second settle of either kind after a
first `settle_fulfilled 7` leaves the cell fulfilled with 7. -/
theorem settle_first_call_permanent_witness :
    applySettle (SettleOp.reject "late") (CellState.fulfilled (E := String) 7)
        = CellState.fulfilled 7
    ∧ applySettle (SettleOp.reject "late")
        (applySettle (SettleOp.fulfill 7) (.pending : CellState Nat String))
        = applySettle (SettleOp.fulfill 7) (.pending : CellState Nat String) := by
  refine ⟨?_, ?_⟩
  · exact (settle_first_call_permanent Nat String).1 (CellState.fulfilled 7)
      (SettleOp.reject "late") (by decide)
  · exact (settle_first_call_permanent Nat String).2
      (SettleOp.fulfill 7) (SettleOp.reject "late")

mutual
/-- Modelled from the spec: a value a handler can return — either a plain
application value or another Settlement Cell together with that cell's
eventual settled outcome (§4.3; the flattening rules only concern cells that
do eventually settle). -/
inductive PValue (V E : Type) where
  | plain : V → PValue V E
  | cell : SettledAs V E → PValue V E

/-- Modelled from the spec: the eventual settled outcome of an inner cell —
fulfilled with a (possibly again cell-valued) value, or rejected. -/
inductive SettledAs (V E : Type) where
  | fulfilled : PValue V E → SettledAs V E
  | rejected : E → SettledAs V E
end

mutual
/-- Modelled from the spec: resolving a handler-returned value into the result
cell's outcome — a plain value fulfills, a cell is adopted, arbitrarily nested
deferred values collapsing to a single level (§4.3 flattening). -/
def resolveValue : PValue V E → Outcome V E
  | .plain v => .fulfilled v
  | .cell s => resolveSettled s

/-- Modelled from the spec: the result cell adopts an inner cell's eventual
outcome once it settles (§4.3). -/
def resolveSettled : SettledAs V E → Outcome V E
  | .fulfilled pv => resolveValue pv
  | .rejected e => .rejected e
end

/-- Modelled from the spec: the three things a handler run can do — return a
value (plain or cell), or raise a failure (§4.3, §6 unit-of-work contract). -/
inductive HandlerResult (V E : Type) where
  | returns : PValue V E → HandlerResult V E
  | raises : E → HandlerResult V E

/-- Modelled from the spec: the outcome a handler run determines for the
result cell — a raise rejects, a returned value is resolved with flattening
(§4.3). -/
def runHandler : HandlerResult V E → Outcome V E
  | .returns pv => resolveValue pv
  | .raises e => .rejected e

/-- Modelled from the spec: `chain(cell, on_fulfilled?, on_rejected?)` applied
to the source cell's eventual outcome.  An absent handler on the taken path
forwards the outcome unchanged (§4.3; source `part_000` lines 78-104). -/
def chain (o : Outcome V E)
    (onFulfilled : Option (V → HandlerResult V E))
    (onRejected : Option (E → HandlerResult V E)) : Outcome V E :=
  match o with
  | .fulfilled v =>
    match onFulfilled with
    | some h => runHandler (h v)
    | none => .fulfilled v
  | .rejected e =>
    match onRejected with
    | some h => runHandler (h e)
    | none => .rejected e

/-- A cell fulfilled with `v`, nested under `k` further levels of
cell-of-fulfilled indirection; `nestedCell 0 v` is the plain value itself. -/
def nestedCell (k : Nat) (v : V) : PValue V E :=
  match k with
  | 0 => .plain v
  | k + 1 => .cell (.fulfilled (nestedCell k v))

/-- Resolving a nested fulfilled cell collapses every level of nesting down to
the underlying plain value. -/
theorem resolveValue_nestedCell (k : Nat) (v : V) :
    resolveValue (nestedCell (E := E) k v) = .fulfilled v := by
  induction k with
  | zero => rfl
  | succ k ih =>
    show resolveValue (PValue.cell (.fulfilled (nestedCell k v))) = _
    show resolveSettled (.fulfilled (nestedCell k v)) = _
    show resolveValue (nestedCell k v) = _
    exact ih

/-- Claim C2: if a fulfilled-path handler returns another Settlement Cell,
the chain's result cell takes exactly that inner cell's eventual outcome once
it settles; in particular, for any nesting depth, a handler returning a cell
that later fulfills with `v` yields a result cell fulfilled with the plain
value `v` itself. -/
theorem chain_flattens (V E : Type) (u : V) (hnd : V → HandlerResult V E)
    (onRejected : Option (E → HandlerResult V E)) :
    (∀ X : SettledAs V E, hnd u = .returns (.cell X) →
        chain (.fulfilled u) (some hnd) onRejected = resolveSettled X)
    ∧ (∀ (k : Nat) (v : V), hnd u = .returns (.cell (.fulfilled (nestedCell k v))) →
        chain (.fulfilled u) (some hnd) onRejected = .fulfilled v) := by
  constructor
  · intro X hX
    show runHandler (hnd u) = resolveSettled X
    rw [hX]
    rfl
  · intro k v hk
    show runHandler (hnd u) = Outcome.fulfilled v
    rw [hk]
    show resolveValue (PValue.cell (.fulfilled (nestedCell k v))) = _
    show resolveSettled (.fulfilled (nestedCell k v)) = _
    show resolveValue (nestedCell k v) = _
    exact resolveValue_nestedCell k v

/-- Witness for C2 at a concrete input: a handler returning a doubly nested
cell that fulfills with 7 yields a chain result fulfilled with 7. -/
theorem chain_flattens_witness :
    chain (Outcome.fulfilled (E := String) 0)
        (some fun _ => HandlerResult.returns (.cell (.fulfilled (nestedCell 2 7))))
        none
      = Outcome.fulfilled 7 :=
  (chain_flattens Nat String 0
    (fun _ => HandlerResult.returns (.cell (.fulfilled (nestedCell 2 7)))) none).2
    2 7 rfl

/-- Claim C5: on a rejected source cell, a present reject-path handler that
returns normally with a plain value makes the chain's result cell fulfill
with that value, while an absent reject-path handler lets the rejection
propagate unchanged to the result cell. -/
theorem catch_recovers (V E : Type) (e : E)
    (onFulfilled : Option (V → HandlerResult V E)) :
    (∀ (h : E → HandlerResult V E) (v : V), h e = .returns (.plain v) →
        chain (.rejected e) onFulfilled (some h) = .fulfilled v)
    ∧ chain (.rejected e) onFulfilled none = .rejected e := by
  constructor
  · intro h v hv
    show runHandler (h e) = Outcome.fulfilled v
    rw [hv]
    rfl
  · rfl

/-- Witness for C5 at a concrete input: a reject handler returning the plain
default value 42 converts the rejection into fulfillment with 42, and with no
reject handler the rejection passes through. -/
theorem catch_recovers_witness :
    chain (Outcome.rejected (V := Nat) "boom") none
        (some fun _ => HandlerResult.returns (.plain 42))
      = Outcome.fulfilled 42
    ∧ chain (Outcome.rejected (V := Nat) "boom") none none
      = Outcome.rejected "boom" := by
  refine ⟨?_, (catch_recovers Nat String "boom" none).2⟩
  exact (catch_recovers Nat String "boom" none).1
    (fun _ => HandlerResult.returns (.plain 42)) 42 rfl

/-- Modelled from the spec: resuming a suspension point once the awaited cell
has settled — the fulfillment value is injected as an ordinary expression
result and a rejection is injected as a raised failure at that exact point
(§4.5; source `41_async_functions.mjs` lines 50-69). -/
def awaitOutcome : Outcome V E → Except E V
  | .fulfilled v => .ok v
  | .rejected e => .error e

/-- Modelled from the spec: awaiting an arbitrary value — a plain value
awaits to itself, a cell awaits to its (flattened) eventual outcome (source
`41_async_functions.mjs` lines 59-61). -/
def awaitValue (pv : PValue V E) : Except E V :=
  awaitOutcome (resolveValue pv)

/-- Modelled from the spec: an ordinary failure-handling block locally
enclosing part of a sequential computation — a normal result passes through,
a raised failure enters the handler (§4.5). -/
def tryCatch (body : Except E V) (handler : E → Except E V) : Except E V :=
  match body with
  | .ok v => .ok v
  | .error e => handler e

/-- Modelled from the spec: the computation's overall result as a Settlement
Cell — fulfilled with the final produced value, rejected with a failure
raised and not locally handled (§4.5). -/
def asyncResult : Except E V → Outcome V E
  | .ok v => .fulfilled v
  | .error e => .rejected e

/-- Claim C6: a suspended computation awaiting a cell that rejects with `E`
resumes by raising `E` at the suspension point, so a failure-handling block
locally enclosing that point catches `E` (the continuation after the point
never runs), and the computation's result cell carries the handler's result
rather than the bare rejection; without such a block the rejection reaches
the result cell. -/
theorem await_reject_raises_locally (V E : Type) (e : E)
    (k : V → Except E V) (handler : E → Except E V) :
    tryCatch ((awaitOutcome (Outcome.rejected e)).bind k) handler = handler e
    ∧ asyncResult (tryCatch ((awaitOutcome (Outcome.rejected e)).bind k) handler)
        = asyncResult (handler e)
    ∧ asyncResult ((awaitOutcome (Outcome.rejected e)).bind k) = .rejected e := by
  exact ⟨rfl, rfl, rfl⟩

/-- Claim C10: awaiting a plain value that is not a Settlement Cell evaluates
to that value itself, identically to awaiting a cell already fulfilled with
it. -/
theorem await_plain_value (V E : Type) (v : V) :
    awaitValue (PValue.plain (E := E) v) = .ok v
    ∧ awaitValue (PValue.plain (E := E) v)
        = awaitValue (PValue.cell (.fulfilled (.plain v))) := by
  exact ⟨rfl, rfl⟩

/-- Modelled from the spec: the scheduler-facing state around one Settlement
Cell — the cell itself, the reactions registered while it was still pending
(identified by ids), the scheduler's ordered queue of ready tasks (a reaction
id paired with the cached payload it will be invoked with), and the log of
reactions that have actually fired, in order, with the payload each was given
(§3 "Reaction", §4.1, §4.2). -/
structure SchedState (V E : Type) where
  cell : CellState V E
  waiting : List Nat
  queue : List (Nat × (V ⊕ E))
  fired : List (Nat × (V ⊕ E))
deriving DecidableEq, Repr

/-- The cached payload of a settled cell: the fulfillment value or the
rejection error. -/
def payloadOf : CellState V E → Option (V ⊕ E)
  | .pending => none
  | .fulfilled v => some (Sum.inl v)
  | .rejected e => some (Sum.inr e)

/-- Modelled from the spec: `register_reaction` — on a pending cell the
reaction is stored on the cell's pending-reaction list; on an already settled
cell the reaction is enqueued with the cached payload for asynchronous
execution, never run immediately (§4.1; source `part_000` lines 128-143). -/
def register_reaction (s : SchedState V E) (id : Nat) : SchedState V E :=
  match payloadOf s.cell with
  | none => { s with waiting := s.waiting ++ [id] }
  | some p => { s with queue := s.queue ++ [(id, p)] }

/-- Modelled from the spec: settling the cell moves every pending reaction,
in registration order, onto the scheduler queue with the cached payload; on
an already settled cell this is a no-op (§4.1, §4.2). -/
def settleCell (s : SchedState V E) (op : SettleOp V E) : SchedState V E :=
  match payloadOf s.cell with
  | some _ => s
  | none =>
    let c := applySettle op s.cell
    match payloadOf c with
    | some p =>
      { cell := c, waiting := [],
        queue := s.queue ++ s.waiting.map (fun id => (id, p)), fired := s.fired }
    | none => s

/-- Running scheduler tasks to completion: each queued task fires, head
first, and is appended to the log of fired reactions. -/
def drainFrom (fired : List (Nat × (V ⊕ E))) :
    List (Nat × (V ⊕ E)) → List (Nat × (V ⊕ E))
  | [] => fired
  | t :: rest => drainFrom (fired ++ [t]) rest

/-- Modelled from the spec: the scheduler repeatedly removes the head task and
executes it fully before touching the next, until the queue is empty (§4.2
run-to-completion). -/
def drain (s : SchedState V E) : SchedState V E :=
  { s with queue := [], fired := drainFrom s.fired s.queue }

/-- Draining fires exactly the queued tasks, in queue order, after the ones
already fired. -/
theorem drainFrom_eq_append (q : List (Nat × (V ⊕ E))) :
    ∀ fired, drainFrom fired q = fired ++ q := by
  induction q with
  | nil => intro fired; simp [drainFrom]
  | cons t rest ih => intro fired; simp [drainFrom, ih]

/-- Claim C4: registering a reaction never runs its handler synchronously
within the registration call, whatever the cell's state; and on an already
settled cell, once the scheduler drains, the reaction has fired exactly once,
asynchronously, with the cell's cached payload. -/
theorem register_never_synchronous (V E : Type) (s : SchedState V E) (id : Nat) :
    (register_reaction s id).fired = s.fired
    ∧ (∀ p, payloadOf s.cell = some p →
        (∀ q ∈ s.queue, q.1 ≠ id) → (∀ q ∈ s.fired, q.1 ≠ id) →
        (drain (register_reaction s id)).fired = s.fired ++ s.queue ++ [(id, p)]
        ∧ (drain (register_reaction s id)).fired.filter (fun q => q.1 == id)
            = [(id, p)]) := by
  constructor
  · unfold register_reaction
    cases h : payloadOf s.cell <;> rfl
  · intro p hp hq hf
    have hreg : register_reaction s id
        = { s with queue := s.queue ++ [(id, p)] } := by
      unfold register_reaction
      rw [hp]
    have hfired : (drain (register_reaction s id)).fired
        = s.fired ++ s.queue ++ [(id, p)] := by
      rw [hreg]
      show drainFrom s.fired (s.queue ++ [(id, p)]) = _
      rw [drainFrom_eq_append]
      simp
    refine ⟨hfired, ?_⟩
    rw [hfired]
    have h1 : s.fired.filter (fun q => q.1 == id) = [] := by
      rw [List.filter_eq_nil_iff]
      intro q hq'
      simpa using hf q hq'
    have h2 : s.queue.filter (fun q => q.1 == id) = [] := by
      rw [List.filter_eq_nil_iff]
      intro q hq'
      simpa using hq q hq'
    simp [List.filter_append, h1, h2]

/-- Witness for C4 at a concrete input: on a cell already fulfilled with 9,
registering reaction 5 fires nothing synchronously, and draining fires it
exactly once with the cached payload 9. -/
theorem register_never_synchronous_witness :
    (register_reaction (⟨CellState.fulfilled 9, [], [], []⟩ : SchedState Nat String) 5).fired = []
    ∧ (drain (register_reaction (⟨CellState.fulfilled 9, [], [], []⟩ : SchedState Nat String) 5)).fired
        = [(5, Sum.inl 9)] := by
  have h := register_never_synchronous Nat String
    ⟨CellState.fulfilled 9, [], [], []⟩ 5
  refine ⟨h.1, ?_⟩
  have h2 := (h.2 (Sum.inl 9) rfl (by intro q hq; simp at hq)
    (by intro q hq; simp at hq)).1
  simpa using h2

/-- Modelled from the spec: one chronological settlement event reaching an
aggregate combinator — one input (by its index in the fixed ordered
collection) fills its slot with a payload, or one input short-circuits the
policy with an immediate result (§4.4, §3 "Aggregate Request"). -/
inductive AggEvent (α γ : Type) where
  | fill : Nat → α → AggEvent α γ
  | short : γ → AggEvent α γ
deriving DecidableEq, Repr

/-- Modelled from the spec: the output cell of an aggregate — pending, settled
with the completed index-aligned collection, or settled by a short-circuiting
input (§4.4). -/
inductive AggOutput (α γ : Type) where
  | pending : AggOutput α γ
  | completed : List α → AggOutput α γ
  | shorted : γ → AggOutput α γ
deriving DecidableEq, Repr

/-- Modelled from the spec: the state of an aggregate request — one slot per
input, index-aligned, plus the output cell; the output settles exactly once
and later inputs have no further effect (§3 "Aggregate Request"). -/
structure AggState (α γ : Type) where
  slots : List (Option α)
  output : AggOutput α γ
deriving DecidableEq, Repr

/-- Collecting the slots once every one is filled, preserving input order. -/
def collect : List (Option α) → Option (List α)
  | [] => some []
  | none :: _ => none
  | some a :: t => (collect t).map (a :: ·)

/-- Modelled from the spec: a fresh aggregate over `n` inputs — all slots
empty; an empty collection completes immediately with the empty success
collection (§4.4 edge case). -/
def aggInit (n : Nat) : AggState α γ :=
  match collect (List.replicate n (none : Option α)) with
  | some l => ⟨List.replicate n none, .completed l⟩
  | none => ⟨List.replicate n none, .pending⟩

/-- Modelled from the spec: processing one settlement event.  Once the output
has settled, further events have no observable effect; otherwise a fill event
stores its payload at the input's index and completes the output when every
slot is filled, and a short event settles the output immediately (§4.4). -/
def stepAgg (s : AggState α γ) (ev : AggEvent α γ) : AggState α γ :=
  match s.output with
  | .pending =>
    match ev with
    | .fill i a =>
      match collect (s.slots.set i (some a)) with
      | some l => ⟨s.slots.set i (some a), .completed l⟩
      | none => ⟨s.slots.set i (some a), .pending⟩
    | .short c => ⟨s.slots, .shorted c⟩
  | _ => s

/-- Running an aggregate over `n` inputs on a chronological event list. -/
def runAgg (n : Nat) (evs : List (AggEvent α γ)) : AggState α γ :=
  evs.foldl stepAgg (aggInit n)

/-- Modelled from the spec: how `AllSucceed` (Promise.all) reads an input's
settlement — a fulfillment fills the input's slot, a rejection short-circuits
with that error (§4.4 table row; source `part_000` lines 151-168). -/
def allEvent : Nat × Outcome V E → AggEvent V E
  | (i, .fulfilled v) => .fill i v
  | (_, .rejected e) => .short e

/-- Modelled from the spec: the `AllSucceed` output cell after a chronological
list of input settlements — fulfilled with the index-aligned collection of
values once every input fulfilled, rejected with the first rejection's error
(§4.4; source `part_000` lines 151-168). -/
def allSucceedRun (n : Nat) (evs : List (Nat × Outcome V E)) : CellState (List V) E :=
  match (runAgg n (evs.map allEvent)).output with
  | .pending => .pending
  | .completed l => .fulfilled l
  | .shorted e => .rejected e

/-- Modelled from the spec: how `FirstSucceeded` (Promise.any) reads an
input's settlement — a rejection fills the input's slot with its reason, a
fulfillment short-circuits with that value (§4.4 table row; source `part_000`
lines 189-208). -/
def anyEvent : Nat × Outcome V E → AggEvent E V
  | (i, .rejected e) => .fill i e
  | (_, .fulfilled v) => .short v

/-- Modelled from the spec: the `FirstSucceeded` output cell after a
chronological list of input settlements — fulfilled with the first input to
fulfill, rejected with the aggregate of every input's rejection reason,
index-aligned, once all inputs rejected (§4.4; source `part_000` lines
201-208). -/
def firstSucceededRun (n : Nat) (evs : List (Nat × Outcome V E)) :
    CellState V (List E) :=
  match (runAgg n (evs.map anyEvent)).output with
  | .pending => .pending
  | .completed l => .rejected l
  | .shorted v => .fulfilled v

/-- The slots of an aggregate over `n` inputs in which exactly the inputs
listed in `done` have filled their slot, with `f` giving each input's
payload. -/
def doneSlots (n : Nat) (f : Nat → α) (done : List Nat) : List (Option α) :=
  (List.range n).map fun j => if j ∈ done then some (f j) else none

/-- With no input done yet, every slot is empty. -/
theorem doneSlots_nil (n : Nat) (f : Nat → α) :
    doneSlots n f [] = List.replicate n none := by
  simp [doneSlots, List.map_const']

/-- Filling input `i`'s slot moves the slot table from `done` to
`i :: done`. -/
theorem doneSlots_set (n : Nat) (f : Nat → α) (done : List Nat) (i : Nat)
    (_hi : i < n) :
    (doneSlots n f done).set i (some (f i)) = doneSlots n f (i :: done) := by
  apply List.ext_getElem
  · simp [doneSlots]
  · intro j hj1 hj2
    have hjn : j < n := by simpa [doneSlots] using hj2
    rw [List.getElem_set]
    by_cases hij : i = j
    · subst hij
      simp [doneSlots, hjn]
    · have hne : ¬ j = i := fun h => hij h.symm
      simp [doneSlots, hjn, hij, hne]

/-- When every input is done, the slot table is fully filled. -/
theorem doneSlots_full (n : Nat) (f : Nat → α) (done : List Nat)
    (h : ∀ j < n, j ∈ done) :
    doneSlots n f done = (List.range n).map fun j => some (f j) := by
  unfold doneSlots
  apply List.map_congr_left
  intro j hj
  exact if_pos (h j (List.mem_range.mp hj))

/-- A fully mapped slot table collects to the underlying values. -/
theorem collect_map_some (g : β → α) (l : List β) :
    collect (l.map fun b => some (g b)) = some (l.map g) := by
  induction l with
  | nil => rfl
  | cons b t ih => simp [collect, ih]

/-- A slot table with an empty slot does not collect. -/
theorem collect_eq_none_of_none_mem (l : List (Option α)) (h : none ∈ l) :
    collect l = none := by
  induction l with
  | nil => cases h
  | cons x t ih =>
    cases x with
    | none => rfl
    | some a =>
      have ht : none ∈ t := by
        rcases List.mem_cons.mp h with h1 | h1
        · cases h1
        · exact h1
      simp [collect, ih ht]

/-- A slot table whose inputs are not all done does not collect. -/
theorem collect_doneSlots_none (n : Nat) (f : Nat → α) (done : List Nat)
    (j : Nat) (hj : j < n) (hjd : j ∉ done) :
    collect (doneSlots n f done) = none := by
  apply collect_eq_none_of_none_mem
  have hlen : j < (doneSlots n f done).length := by simpa [doneSlots] using hj
  have hval : (doneSlots n f done)[j] = none := by
    simp [doneSlots, hjd]
  rw [← hval]
  exact List.getElem_mem hlen

/-- A slot table with every input done collects to the index-aligned value
collection. -/
theorem collect_doneSlots_some (n : Nat) (f : Nat → α) (done : List Nat)
    (h : ∀ j < n, j ∈ done) :
    collect (doneSlots n f done) = some ((List.range n).map f) := by
  rw [doneSlots_full n f done h]
  exact collect_map_some f (List.range n)

/-- Once the aggregate's output has settled, further events leave the state
untouched. -/
theorem foldl_stepAgg_frozen (evs : List (AggEvent α γ)) :
    ∀ s : AggState α γ, s.output ≠ .pending → evs.foldl stepAgg s = s := by
  induction evs with
  | nil => intro s _; rfl
  | cons ev rest ih =>
    intro s h
    have hstep : stepAgg s ev = s := by
      obtain ⟨slots, out⟩ := s
      cases out with
      | pending => exact absurd rfl h
      | completed l => rfl
      | shorted c => rfl
    rw [List.foldl_cons, hstep]
    exact ih s h

/-- Processing a permutation of fill events, one per not-yet-done input,
fills every slot and completes the output with the index-aligned collection,
whatever chronological order the inputs settle in. -/
theorem foldl_fill_perm (n : Nat) (f : Nat → α) :
    ∀ (idxs done : List Nat), (done ++ idxs).Perm (List.range n) → idxs ≠ [] →
      (idxs.map fun i => (AggEvent.fill i (f i) : AggEvent α γ)).foldl stepAgg
          ⟨doneSlots n f done, .pending⟩
        = ⟨(List.range n).map (fun j => some (f j)),
           .completed ((List.range n).map f)⟩ := by
  intro idxs
  induction idxs with
  | nil => intro done _ hne; exact absurd rfl hne
  | cons i rest ih =>
    intro done hperm _
    have hi : i < n := by
      have : i ∈ List.range n := hperm.subset (by simp)
      exact List.mem_range.mp this
    rw [List.map_cons, List.foldl_cons]
    have hset : (doneSlots n f done).set i (some (f i)) = doneSlots n f (i :: done) :=
      doneSlots_set n f done i hi
    cases rest with
    | nil =>
      have hfull : ∀ j < n, j ∈ i :: done := by
        intro j hj
        have hmem : j ∈ done ++ [i] := hperm.symm.subset (List.mem_range.mpr hj)
        rcases List.mem_append.mp hmem with h1 | h1
        · exact List.mem_cons_of_mem i h1
        · simp at h1
          simp [h1]
      have hds : doneSlots n f (i :: done) = (List.range n).map fun j => some (f j) :=
        doneSlots_full n f (i :: done) hfull
      have hcol2 : collect ((List.range n).map fun j => some (f j))
          = some ((List.range n).map f) := collect_map_some f (List.range n)
      show stepAgg ⟨doneSlots n f done, .pending⟩ (.fill i (f i)) = _
      simp only [stepAgg, hset, hds, hcol2]
    | cons b rest' =>
      have hnodup : (done ++ i :: b :: rest').Nodup :=
        hperm.nodup_iff.mpr (List.nodup_range n)
      have hb : b < n := by
        have : b ∈ List.range n := hperm.subset (by simp)
        exact List.mem_range.mp this
    -- b has not filled its slot yet, so the table cannot collect
      have hbnot : b ∉ i :: done := by
        rcases List.nodup_append.mp hnodup with ⟨_, hnd2, hdisj⟩
        intro hmem
        rcases List.mem_cons.mp hmem with h1 | h1
        · subst h1
          have : b ∉ b :: rest' := (List.nodup_cons.mp hnd2).1
          exact this (List.mem_cons_self b rest')
        · exact hdisj h1 (by simp)
      have hcol : collect (doneSlots n f (i :: done)) = none :=
        collect_doneSlots_none n f (i :: done) b hb hbnot
      have hstep : stepAgg (γ := γ) ⟨doneSlots n f done, .pending⟩ (.fill i (f i))
          = ⟨doneSlots n f (i :: done), .pending⟩ := by
        simp only [stepAgg, hcol, hset]
      rw [hstep]
      apply ih (i :: done)
      · exact (List.perm_middle.symm).trans hperm
      · simp

/-- The number of filled slots in a slot table. -/
def someCount (l : List (Option α)) : Nat := (l.filter fun o => o.isSome).length

/-- Filling one slot adds at most one to the filled count. -/
theorem someCount_set_le (l : List (Option α)) :
    ∀ (i : Nat) (a : α), someCount (l.set i (some a)) ≤ someCount l + 1 := by
  induction l with
  | nil => intro i a; simp [someCount]
  | cons x t ih =>
    intro i a
    cases i with
    | zero =>
      cases x <;> simp [someCount, List.filter]
    | succ i =>
      have h := ih i a
      cases x <;> simp [someCount, List.filter] at h ⊢ <;> omega

/-- A filled slot at the head adds one to the filled count. -/
theorem someCount_cons_some (a : α) (t : List (Option α)) :
    someCount (some a :: t) = someCount t + 1 := by
  simp [someCount, List.filter]

/-- A slot table only collects when every slot is filled. -/
theorem someCount_of_collect_some (l : List (Option α)) (v : List α)
    (h : collect l = some v) : someCount l = l.length := by
  induction l generalizing v with
  | nil => simp [someCount]
  | cons x t ih =>
    cases x with
    | none => simp [collect] at h
    | some a =>
      simp only [collect] at h
      rcases Option.map_eq_some'.mp h with ⟨w, hw, _⟩
      rw [someCount_cons_some, List.length_cons, ih w hw]

/-- Setting a slot preserves the table's length. -/
theorem length_set_slots (l : List (Option α)) (i : Nat) (a : α) :
    (l.set i (some a)).length = l.length := by simp

/-- Processing fewer fill events than there are inputs leaves the aggregate's
output pending: no rejection and no completion has happened yet. -/
theorem foldl_fill_pending (n : Nat) :
    ∀ (evs : List (AggEvent α γ)) (s : AggState α γ),
      (∀ ev ∈ evs, ∃ i a, ev = AggEvent.fill i a) → s.output = .pending →
      s.slots.length = n → someCount s.slots + evs.length < n →
      (evs.foldl stepAgg s).output = .pending := by
  intro evs
  induction evs with
  | nil =>
    intro s _ hout _ _
    exact hout
  | cons ev rest ih =>
    intro s hfill hout hlen hcnt
    obtain ⟨i, a, hev⟩ := hfill ev (by simp)
    obtain ⟨slots, out⟩ := s
    simp only at hout hlen hcnt
    subst hout hev
    have hle : someCount (slots.set i (some a)) ≤ someCount slots + 1 :=
      someCount_set_le slots i a
    have hlt : someCount (slots.set i (some a)) < n := by
      simp at hcnt
      omega
    have hcol : collect (slots.set i (some a)) = none := by
      cases hc : collect (slots.set i (some a)) with
      | none => rfl
      | some v =>
        have := someCount_of_collect_some _ v hc
        rw [length_set_slots, hlen] at this
        omega
    have hstep : stepAgg (γ := γ) ⟨slots, .pending⟩ (.fill i a)
        = ⟨slots.set i (some a), .pending⟩ := by
      simp only [stepAgg, hcol]
    rw [List.foldl_cons, hstep]
    apply ih ⟨slots.set i (some a), .pending⟩
    · intro e he
      exact hfill e (by simp [he])
    · rfl
    · rw [length_set_slots, hlen]
    · simp only [length_set_slots]
      simp at hcnt
      omega

/-- A fresh aggregate over at least one input starts with its output pending
and all slots empty. -/
theorem aggInit_pos (n : Nat) (hn : 0 < n) :
    (aggInit n : AggState α γ) = ⟨List.replicate n none, .pending⟩ := by
  cases n with
  | zero => omega
  | succ m => rfl

/-- A fresh aggregate has no filled slot. -/
theorem someCount_replicate_none (n : Nat) :
    someCount (List.replicate n (none : Option α)) = 0 := by
  induction n with
  | zero => rfl
  | succ m ih => simp [someCount, List.replicate_succ, List.filter]

/-- Claim C3: `AllSucceed` over a fixed ordered collection of inputs fulfills
with the index-aligned collection of every input's value when all inputs
fulfill, in whatever chronological order they settle; and when an input
rejects first, it rejects with that input's error at the moment of that first
rejection, without waiting for the remaining inputs, whose later outcomes are
ignored. -/
theorem allSucceed_spec (V E : Type) (n : Nat) :
    (∀ (f : Nat → V) (idxs : List Nat), idxs.Perm (List.range n) → idxs ≠ [] →
        allSucceedRun (E := E) n (idxs.map fun i => (i, Outcome.fulfilled (f i)))
          = .fulfilled ((List.range n).map f))
    ∧ (∀ (pre rest : List (Nat × Outcome V E)) (i : Nat) (e : E),
        (∀ ev ∈ pre, ∃ v, ev.2 = Outcome.fulfilled v) → pre.length < n →
        allSucceedRun n (pre ++ (i, Outcome.rejected e) :: rest) = .rejected e
        ∧ allSucceedRun n (pre ++ (i, Outcome.rejected e) :: rest)
            = allSucceedRun n (pre ++ [(i, Outcome.rejected e)])) := by
  constructor
  · intro f idxs hperm hne
    have hn : 0 < n := by
      have hlen : idxs.length = n := by simpa using hperm.length_eq
      cases idxs with
      | nil => exact absurd rfl hne
      | cons a t => simp at hlen; omega
    unfold allSucceedRun runAgg
    rw [List.map_map]
    have hmap : (allEvent ∘ fun i => ((i
      : Nat), Outcome.fulfilled (f i))) = fun i => (AggEvent.fill i (f i) : AggEvent V E) := by
      funext i
      rfl
    rw [hmap, aggInit_pos n hn, ← doneSlots_nil n f]
    rw [foldl_fill_perm n f idxs [] (by simpa using hperm) hne]
  · intro pre rest i e hpre hlen
    have hn : 0 < n := by omega
    have hsplit : ∀ tail, (pre ++ (i, Outcome.rejected e) :: tail).map allEvent
        = pre.map allEvent ++ (AggEvent.short e : AggEvent V E) :: tail.map allEvent := by
      intro tail
      simp [allEvent]
    have hprefill : ∀ ev ∈ pre.map allEvent, ∃ j a, ev = AggEvent.fill j a := by
      intro ev hev
      rcases List.mem_map.mp hev with ⟨⟨j, o⟩, hmem, hEq⟩
      obtain ⟨v, hv⟩ := hpre (j, o) hmem
      simp only at hv
      subst hv
      exact ⟨j, v, hEq.symm⟩
    have hpending : ((pre.map allEvent).foldl stepAgg
        (aggInit n : AggState V E)).output = .pending := by
      rw [aggInit_pos n hn]
      apply foldl_fill_pending n _ _ hprefill rfl (by simp)
      simp [someCount_replicate_none, hlen]
    have hmain : ∀ tail, ((pre ++ (i, Outcome.rejected e) :: tail).map allEvent).foldl
        stepAgg (aggInit n : AggState V E)
        = ⟨((pre.map allEvent).foldl stepAgg (aggInit n : AggState V E)).slots,
           .shorted e⟩ := by
      intro tail
      rw [hsplit, List.foldl_append, List.foldl_cons]
      set s1 := (pre.map allEvent).foldl stepAgg (aggInit n : AggState V E) with hs1
      have hstep : stepAgg s1 (AggEvent.short e) = ⟨s1.slots, .shorted e⟩ := by
        obtain ⟨slots, out⟩ := s1
        simp only at hpending
        rw [hpending]
        rfl
      rw [hstep]
      exact foldl_stepAgg_frozen _ _ (by simp)
    constructor
    · unfold allSucceedRun runAgg
      rw [hmain rest]
    · unfold allSucceedRun runAgg
      rw [hmain rest, hmain []]

/-- Witness for C3 at concrete inputs: three inputs fulfilling with 1,2,3 in
index order yield success `[1,2,3]`; with input 1 rejecting "boom" first, the
aggregate rejects with "boom" even though input 2 fulfills afterwards. -/
theorem allSucceed_spec_witness :
    allSucceedRun (E := String) 3
        (([0, 1, 2] : List Nat).map fun i => (i, Outcome.fulfilled (i + 1)))
      = CellState.fulfilled ((List.range 3).map fun i => i + 1)
    ∧ allSucceedRun (V := Nat) 3
        ([(0, Outcome.fulfilled 1)] ++ (1, Outcome.rejected "boom") :: [(2, Outcome.fulfilled 3)])
      = CellState.rejected "boom" := by
  constructor
  · exact (allSucceed_spec Nat String 3).1 (fun i => i + 1) [0, 1, 2] (by decide) (by decide)
  · refine ((allSucceed_spec Nat String 3).2 [(0, Outcome.fulfilled 1)]
      [(2, Outcome.fulfilled 3)] 1 "boom" ?_ (by decide)).1
    intro ev hev
    simp at hev
    subst hev
    exact ⟨1, rfl⟩

/-- Claim C7: when every input of `FirstSucceeded` rejects, the output cell
rejects with an aggregate carrying exactly the inputs' rejection reasons,
index-aligned with the input order, whatever chronological order the
rejections occurred in. -/
theorem firstSucceeded_all_reject (V E : Type) (n : Nat) (r : Nat → E)
    (idxs : List Nat) (hperm : idxs.Perm (List.range n)) (hne : idxs ≠ []) :
    firstSucceededRun (V := V) n (idxs.map fun i => (i, Outcome.rejected (r i)))
      = .rejected ((List.range n).map r) := by
  have hn : 0 < n := by
    have hlen : idxs.length = n := by simpa using hperm.length_eq
    cases idxs with
    | nil => exact absurd rfl hne
    | cons a t => simp at hlen; omega
  unfold firstSucceededRun runAgg
  rw [List.map_map]
  have hmap : (anyEvent ∘ fun i => ((i : Nat), Outcome.rejected (r i)))
      = fun i => (AggEvent.fill i (r i) : AggEvent E V) := by
    funext i
    rfl
  rw [hmap, aggInit_pos n hn, ← doneSlots_nil n r]
  rw [foldl_fill_perm n r idxs [] (by simpa using hperm) hne]

/-- Witness for C7 at a concrete input: two inputs rejecting in reverse index
order still yield an aggregate whose carried reasons are in input order. -/
theorem firstSucceeded_all_reject_witness :
    firstSucceededRun (V := Nat) 2
        (([1, 0] : List Nat).map fun i => (i, Outcome.rejected (if i = 0 then "ERROR A" else "ERROR B")))
      = CellState.rejected ((List.range 2).map fun i => if i = 0 then "ERROR A" else "ERROR B") :=
  firstSucceeded_all_reject Nat String 2
    (fun i => if i = 0 then "ERROR A" else "ERROR B") [1, 0] (by decide) (by decide)

/-- A `{value, done}`-shaped Sequence Step, with `none` standing for the
language's undefined value (§3 "Sequence Step"; source
`30_synchronous_iteration.mjs` lines 16-31). -/
structure IterStep (α : Type) where
  value : Option α
  done : Bool
deriving DecidableEq, Repr

/-- Modelled from the spec: the synchronous array iterator obtained from an
iterable — the backing elements plus the position of the next pull (source
`30_synchronous_iteration.mjs` lines 23-31). -/
structure ArrayIterator (α : Type) where
  elems : List α
  pos : Nat
deriving DecidableEq, Repr

/-- Modelled from the spec: one pull from an array iterator — while elements
remain it yields the next one with `done = false` and advances; past the end
it reports `done = true` with no meaningful value and stays exhausted
(source `30_synchronous_iteration.mjs` lines 28-31). -/
def ArrayIterator.next (it : ArrayIterator α) : IterStep α × ArrayIterator α :=
  match it.elems[it.pos]? with
  | some v => (⟨some v, false⟩, ⟨it.elems, it.pos + 1⟩)
  | none => (⟨none, true⟩, it)

/-- The `k`-th pull after the current one. -/
def ArrayIterator.nextN (it : ArrayIterator α) : Nat → IterStep α × ArrayIterator α
  | 0 => it.next
  | k + 1 => (it.next).2.nextN k

/-- A pull that reports `done = true` leaves the iterator untouched. -/
theorem next_done_fixes (it : ArrayIterator α) (h : (it.next).1.done = true) :
    it.next = (⟨none, true⟩, it) := by
  unfold ArrayIterator.next at h ⊢
  cases hx : it.elems[it.pos]? with
  | some v => rw [hx] at h; simp at h
  | none => rfl

/-- Claim C8: once a pull on a sequence source has reported `done = true`,
the source is permanently exhausted — every subsequent pull reports
`done = true` with no value, so no previously produced value is ever yielded
again. -/
theorem exhausted_never_resurrects (α : Type) (it : ArrayIterator α)
    (h : (it.next).1.done = true) :
    ∀ k : Nat, (it.nextN k).1 = ⟨none, true⟩ ∧ (it.nextN k).2 = it := by
  intro k
  induction k with
  | zero =>
    rw [ArrayIterator.nextN, next_done_fixes it h]
    exact ⟨rfl, rfl⟩
  | succ k ih =>
    rw [ArrayIterator.nextN, next_done_fixes it h]
    exact ih

/-- Witness for C8 at a concrete input: the exhausted iterator over
`["a","b"]` keeps answering `done = true` with no value on its next three
pulls. -/
theorem exhausted_never_resurrects_witness :
    ((⟨["a", "b"], 2⟩ : ArrayIterator String).nextN 2).1 = ⟨none, true⟩ := by
  exact (exhausted_never_resurrects String ⟨["a", "b"], 2⟩ (by decide) 2).1

/-- The body of the source's generator `genFunc3` as a state machine: the
observable side effect is the module-level `location` variable, and the
suspension position is the number of yields already passed.  Calling the
generator function runs none of the body: it returns the untouched
`location` and a fresh iterator at position 0 (source `part_002` lines
36-48; the suspension behaviour itself is modelled from the spec, §4.5,
§4.6). -/
def genFunc3Call (location : Nat) : Nat × Nat := (location, 0)

/-- One pull on `genFunc3`'s iterator: the segment up to the next suspension
point runs (updating `location` as the source's body does), and the pull
reports the yielded value, or `done = true` with no value once the body has
run to completion (source `part_002` lines 36-58). -/
def genFunc3Next (location : Nat) (stage : Nat) : Nat × Nat × IterStep String :=
  match stage with
  | 0 => (1, 1, ⟨some "a", false⟩)
  | 1 => (2, 2, ⟨some "b", false⟩)
  | 2 => (3, 3, ⟨none, true⟩)
  | s + 3 => (location, s + 3, ⟨none, true⟩)

/-- Claim C9: calling the generator function executes no statement of its
body (`location` is untouched), the segment up to the i-th suspension point
runs only when the i-th step is pulled (observable through `location`), each
such pull returns the yielded value with `done = false`, and the pull that
runs the body to completion returns no value with `done = true` — exactly the
trace the source asserts. -/
theorem generator_lazy_trace :
    (∀ location : Nat, genFunc3Call location = (location, 0))
    ∧ genFunc3Next 0 0 = (1, 1, ⟨some "a", false⟩)
    ∧ genFunc3Next 1 1 = (2, 2, ⟨some "b", false⟩)
    ∧ genFunc3Next 2 2 = (3, 3, ⟨none, true⟩)
    ∧ (∀ location stage : Nat, 3 ≤ stage →
        genFunc3Next location stage = (location, stage, ⟨none, true⟩)) := by
  refine ⟨fun _ => rfl, rfl, rfl, rfl, ?_⟩
  intro location stage h
  match stage, h with
  | s + 3, _ => rfl

/-- Witness for C9 at a concrete input: pulling a fourth time after the body
completed changes nothing and stays done. -/
theorem generator_lazy_trace_witness :
    genFunc3Call 0 = (0, 0) ∧ genFunc3Next 3 3 = (3, 3, ⟨none, true⟩) :=
  ⟨(generator_lazy_trace).1 0, (generator_lazy_trace).2.2.2.2 3 3 (by decide)⟩

end Settlement
